import Mathlib

/-!
Verification of the TanQi recursive LCA workflow-orchestration core.

The development shallowly embeds the four TypeScript source files:

* `utils` (spreadsheet access): `extractSheetToJson` with its filter and
  projection stages, modelled over association-list rows;
* the lifecycle driver (`processDemandsRecursively`): canonical-key
  computation (`trim().toLowerCase().substring(0, 100)`), the visited-set
  admission check and the depth-bounded recursion;
* the workflow graph file: the conditional-routing functions
  `shouldContinueBoundaryAnalysis` and `shouldContinueFlowJudger`, and the
  grade-joining `final_summarizer`;
* the tournament selection and consensus reduction that the source
  delegates to an external oracle, modelled from the specification text
  (their step-by-step rules appear verbatim in the source prompts).

JavaScript strings are modelled as `List Char`; JavaScript objects as
association lists `List (String × v)`; JavaScript falsiness of a string
field as equality with `""`; thrown exceptions as `Except`.
-/

/-! ## JavaScript string primitives (trim, toLowerCase, substring)

`processDemandsRecursively` computes the canonical key of a demand by
`demand.trim().toLowerCase().substring(0, 100)`.  We model strings as
`List Char`, `toLowerCase` as the ASCII letter map (the demands handled by
the source are ASCII text), `trim` as removal of leading and trailing
whitespace, and `substring (0, 100)` as `List.take 100`. -/

/-- The upper-to-lower case table of the ASCII letters. -/
def letterPairs : List (Char × Char) :=
  [('A', 'a'), ('B', 'b'), ('C', 'c'), ('D', 'd'), ('E', 'e'), ('F', 'f'),
   ('G', 'g'), ('H', 'h'), ('I', 'i'), ('J', 'j'), ('K', 'k'), ('L', 'l'),
   ('M', 'm'), ('N', 'n'), ('O', 'o'), ('P', 'p'), ('Q', 'q'), ('R', 'r'),
   ('S', 's'), ('T', 't'), ('U', 'u'), ('V', 'v'), ('W', 'w'), ('X', 'x'),
   ('Y', 'y'), ('Z', 'z')]

/-- ASCII lower-casing of one character, the per-character behaviour of
JavaScript `toLowerCase` on the ASCII range: look the character up in the
case table and keep it unchanged when it is not an uppercase letter. -/
def jsLowerChar (c : Char) : Char :=
  ((letterPairs.find? (fun p => p.1 = c)).map (fun p => p.2)).getD c

/-- JavaScript `toLowerCase` over a whole string. -/
def jsToLower (s : List Char) : List Char := s.map jsLowerChar

/-- Removal of leading whitespace, the first half of JavaScript `trim`. -/
def trimStart (s : List Char) : List Char := s.dropWhile Char.isWhitespace

/-- Removal of trailing whitespace, the second half of JavaScript `trim`. -/
def trimEnd : List Char → List Char
  | [] => []
  | a :: l =>
    let r := trimEnd l
    if r.isEmpty && a.isWhitespace then [] else a :: r

/-- JavaScript `trim`: drop leading and trailing whitespace. -/
def jsTrim (s : List Char) : List Char := trimEnd (trimStart s)

/-- Canonical key of a demand text, from `processDemandsRecursively`:
`demand.trim().toLowerCase().substring(0, 100)`. -/
def canonicalKey (demand : List Char) : List Char :=
  (jsToLower (jsTrim demand)).take 100

/-! ## The depth-bounded recursion controller (`processDemandsRecursively`)

The driver keeps a module-level `processedDemands : Set<string>` (cleared at
the start of each lifecycle analysis) and a constant
`MAX_RECURSION_DEPTH = 3`.  A call first rejects when
`depth >= MAX_RECURSION_DEPTH`, then skips when the canonical key is already
in the set, and otherwise inserts the key and processes the demand.  The
`has`/`add` pair runs synchronously with no intervening `await`, so with
respect to the JavaScript event loop each admission check is one atomic
step; an arbitrary interleaving of concurrent calls is therefore an
arbitrary sequence of atomic `admitDemand` steps. -/

/-- Depth limit of the recursive driver (`MAX_RECURSION_DEPTH`). -/
def MAX_RECURSION_DEPTH : Nat := 3

/-- One admission check of `processDemandsRecursively`: reject at the depth
cap, skip an already-visited canonical key, otherwise insert the key and
accept.  Returns the updated visited set and whether the demand was
accepted for processing. -/
def admitDemand (visited : List (List Char)) (demand : List Char) (depth : Nat) :
    List (List Char) × Bool :=
  if MAX_RECURSION_DEPTH ≤ depth then (visited, false)
  else if canonicalKey demand ∈ visited then (visited, false)
  else (canonicalKey demand :: visited, true)

/-- The canonical keys of the accepted calls, for a sequence of
`admitDemand` steps (each pair is a demand text with the depth of its
call), starting from the given visited set. -/
def acceptedKeys : List (List Char) → List (List Char × Nat) → List (List Char)
  | _, [] => []
  | visited, c :: rest =>
    let r := admitDemand visited c.1 c.2
    if r.2 then canonicalKey c.1 :: acceptedKeys r.1 rest
    else acceptedKeys r.1 rest

/-! For the bounded-branching scenario the oracle (the inner workflow run)
is a function from a demand text to the list of new sub-demand texts it
generates.  `procRec` is `processDemandsRecursively` with the remaining
depth budget `MAX_RECURSION_DEPTH - depth` as fuel: fuel `0` is the
`depth >= MAX_RECURSION_DEPTH` rejection.  It returns the updated visited
set together with the number of admitted (accepted and processed) calls,
the root call included.  `procList` is the sequential elaboration of the
batched loop over the new sub-demands (batching only affects ordering,
which the visited set threading makes explicit). -/

mutual

/-- One recursive call of `processDemandsRecursively`, counting admissions. -/
def procRec (oracle : List Char → List (List Char)) :
    Nat → List Char → List (List Char) → List (List Char) × Nat
  | 0, _, visited => (visited, 0)
  | fuel + 1, demand, visited =>
    if canonicalKey demand ∈ visited then (visited, 0)
    else
      let r := procList oracle fuel (oracle demand) (canonicalKey demand :: visited)
      (r.1, 1 + r.2)
termination_by fuel _ _ => (fuel, 0)

/-- Sequential processing of a batch of new sub-demands. -/
def procList (oracle : List Char → List (List Char)) :
    Nat → List (List Char) → List (List Char) → List (List Char) × Nat
  | _, [], visited => (visited, 0)
  | fuel, d :: rest, visited =>
    let r1 := procRec oracle fuel d visited
    let r2 := procList oracle fuel rest r1.1
    (r2.1, r1.2 + r2.2)
termination_by fuel ds _ => (fuel, ds.length + 1)

end

/-! ## Conditional routing of the queue-flattened workflow graph

The workflow graph file accumulates `messages`; a message carries a list of
tool calls, each with a name and arguments.  The routing functions
`shouldContinueBoundaryAnalysis` and `shouldContinueFlowJudger` inspect that
list.  Only the argument fields those functions read are modelled
(`whether_reach_cradle`, `empty_result`, `combined_flows`); absent fields
are `none`, matching the `?.` optional-chaining accesses of the source. -/

/-- One entry of a `combined_flows` list produced by `flow_judger`. -/
structure FlowEntry where
  flow_name : String
  flow_UUID : String
  industry_relevance : String
deriving DecidableEq

/-- The argument fields of a tool call that the routing functions read. -/
structure ToolArgs where
  whether_reach_cradle : Option String
  empty_result : Option Bool
  combined_flows : Option (List FlowEntry)
deriving DecidableEq

/-- Tool-call arguments with every modelled field absent. -/
def noArgs : ToolArgs := ⟨none, none, none⟩

/-- One tool call attached to a message. -/
structure ToolCall where
  name : String
  args : ToolArgs
deriving DecidableEq

/-- A message of the accumulated workflow state: its list of tool calls. -/
structure Msg where
  tool_calls : List ToolCall
deriving DecidableEq

/-- Whether a message carries a tool call with the given name
(`msg.tool_calls?.some(tool => tool.name === n)`). -/
def hasToolNamed (m : Msg) (n : String) : Bool :=
  m.tool_calls.any (fun t => t.name = n)

/-- Number of messages carrying a tool call with the given name; the
routing functions use it as the iteration count. -/
def countToolMsgs (msgs : List Msg) (n : String) : Nat :=
  (msgs.filter (fun m => hasToolNamed m n)).length

/-- Arguments of the first tool call of a message
(`msg.tool_calls?.[0]?.args`). -/
def firstToolCallArgs (m : Msg) : Option ToolArgs :=
  m.tool_calls.head?.map (fun t => t.args)

/-- The routing function after `boundary_judger`: terminate once more than
10 `demand_extractor` messages have accumulated; otherwise terminate when
the first `boundary_judger` message answers `"Yes"` (or is missing), and
continue the analysis in every other case. -/
def shouldContinueBoundaryAnalysis (msgs : List Msg) : String :=
  if 10 < countToolMsgs msgs "demand_extractor" then "end_workflow"
  else
    match msgs.find? (fun m => hasToolNamed m "boundary_judger") with
    | some m =>
      if (firstToolCallArgs m).bind (fun a => a.whether_reach_cradle) = some "Yes"
      then "end_workflow" else "continue_analysis"
    | none => "end_workflow"

/-- The routing function after `flow_judger`: terminate once more than 10
`flow_judger` messages have accumulated; otherwise terminate when the first
`flow_judger` message reports `empty_result === true` or an empty
`combined_flows` list (or is missing), and continue the workflow (towards
`flow_filter`) in every other case. -/
def shouldContinueFlowJudger (msgs : List Msg) : String :=
  if 10 < countToolMsgs msgs "flow_judger" then "end_workflow"
  else
    match msgs.find? (fun m => hasToolNamed m "flow_judger") with
    | some m =>
      let a := firstToolCallArgs m
      let emptyResult := a.bind (fun x => x.empty_result)
      let combinedFlows := (a.bind (fun x => x.combined_flows)).getD []
      if emptyResult = some true ∨ combinedFlows = [] then "end_workflow"
      else "continue_workflow"
    | none => "end_workflow"

/-! ## Spreadsheet access (`extractSheetToJson`)

Rows produced by `sheet_to_json` are JavaScript objects; we model them as
association lists from column name to cell value.  The whole body of
`extractSheetToJson` is wrapped in `try`/`catch`, with `fs.existsSync` and
`xlsx.readFile` the only operations that can fail before the pure filter
and projection stages; the file-existence flag and the read outcome are
therefore inputs of the model.  Every JSON text the function returns is
either an array of rows or an object with an `error` field and a `data`
field, modelled by `ExtractJson`. -/

/-- A spreadsheet cell value; `vnull` is the explicit null marker used to
fill missing projected columns. -/
inductive Cell where
  | str (s : String)
  | num (n : Int)
  | vnull
deriving DecidableEq

/-- A row: a JavaScript object from column name to cell value. -/
abbrev Row := List (String × Cell)

/-- A workbook: its sheets by name. -/
abbrev Workbook := List (String × List Row)

/-- JavaScript `key in obj` on a row. -/
def rowHasKey (r : Row) (k : String) : Bool :=
  r.any (fun p => p.1 = k)

/-- JavaScript `obj[key]` on a row: the value of the first binding of the
key, if any. -/
def rowGet (r : Row) (k : String) : Option Cell :=
  (r.find? (fun p => p.1 = k)).map (fun p => p.2)

/-- JavaScript `obj[key] = v` on a row: overwrite the binding if the key is
present, append it otherwise. -/
def jsObjSet (r : Row) (k : String) (v : Cell) : Row :=
  if rowHasKey r k then r.map (fun p => if p.1 = k then (p.1, v) else p)
  else r ++ [(k, v)]

/-- The keys of a row, in object order. -/
def rowKeys (r : Row) : List String := r.map (fun p => p.1)

/-- First-occurrence deduplication of a key list relative to the already
seen keys: the keys a JavaScript object ends up with after assigning each
listed key once. -/
def dedupAux : List String → List String → List String
  | [], _ => []
  | c :: cs, seen =>
    if c ∈ seen then dedupAux cs seen else c :: dedupAux cs (c :: seen)

/-- The keys a fresh JavaScript object ends up with after assigning each
listed key once. -/
def dedupKeys (cols : List String) : List String := dedupAux cols []

/-- The projection stage of `extractSheetToJson`: build a new row holding,
for each requested column, the row's value when the column is present and
the explicit null marker otherwise
(`newRow[col] = col in row ? row[col] : null`). -/
def projectRow (cols : List String) (r : Row) : Row :=
  cols.foldl (fun acc c => jsObjSet acc c ((rowGet r c).getD Cell.vnull)) []

/-- The filter stage of `extractSheetToJson`: apply each equality filter in
order, failing (as the source does, with an error return) when the data is
empty or its first row lacks the filter column. -/
def applyFilters : List (String × Cell) → List Row → Except String (List Row)
  | [], data => Except.ok data
  | (col, v) :: rest, data =>
    match data.head? with
    | none => Except.error ("filter column does not exist: " ++ col)
    | some r0 =>
      if rowHasKey r0 col then
        applyFilters rest (data.filter (fun r => rowGet r col = some v))
      else Except.error ("filter column does not exist: " ++ col)

/-- The JSON text returned by `extractSheetToJson`: an array of rows on
success, or an object with an `error` message and a `data` list. -/
inductive ExtractJson where
  | rows (data : List Row)
  | errObj (error : String) (data : List Row)
deriving DecidableEq

/-- The rows of the named sheet of a workbook (`sheet_to_json` of
`workbook.Sheets[sheetName]`). -/
def sheetData (wb : Workbook) (sheetName : String) : List Row :=
  ((wb.find? (fun p => p.1 = sheetName)).map (fun p => p.2)).getD []

/-- The filter stage applied to the named sheet, when filter conditions
were supplied. -/
def filterStage (wb : Workbook) (sheetName : String)
    (filterConditions : Option (List (String × Cell))) : Except String (List Row) :=
  match filterConditions with
  | none => Except.ok (sheetData wb sheetName)
  | some fcs => applyFilters fcs (sheetData wb sheetName)

/-- `extractSheetToJson`: check file existence, read the workbook, check
the sheet name, convert the sheet, filter, and project, returning an error
object (with an empty `data` array) on every failure path. -/
def extractSheetToJson (fileExists : Bool) (readResult : Except String Workbook)
    (sheetName : String) (filterConditions : Option (List (String × Cell)))
    (extractColumns : Option (List String)) : ExtractJson :=
  if !fileExists then ExtractJson.errObj "file does not exist" []
  else
    match readResult with
    | Except.error e => ExtractJson.errObj ("cannot read excel file: " ++ e) []
    | Except.ok wb =>
      if !(wb.any (fun p => p.1 = sheetName)) then
        ExtractJson.errObj ("sheet name does not exist: " ++ sheetName) []
      else
        match filterStage wb sheetName filterConditions with
        | Except.error msg => ExtractJson.errObj msg []
        | Except.ok data2 =>
          match extractColumns with
          | none => ExtractJson.rows data2
          | some cols =>
            if data2.isEmpty then
              ExtractJson.errObj "worksheet is empty, cannot extract columns" []
            else ExtractJson.rows (data2.map (projectRow cols))

/-! ## The grade join (`final_summarizer` of `lcaKeyAgent.ts`)

`final_summarizer` collects the per-axis summary tool calls, groups them by
`process_UUID` into one record per process, and then materializes a
`final_summary` (the ScoreSheet) only for processes whose three grades are
all present.  JavaScript string falsiness is modelled by equality with
`""`: a field that was never assigned stays `""`. -/

/-- Arguments of one `technical_summary` tool call. -/
structure TechArgs where
  process_UUID : String
  process_name : String
  flow_count : String
  final_technical_representativeness : String
deriving DecidableEq

/-- Arguments of one `spatial_summary` tool call. -/
structure SpatArgs where
  process_UUID : String
  process_name : String
  location : String
  flow_count : String
  final_spatial_representativeness : String
deriving DecidableEq

/-- Arguments of one `time_summary` tool call. -/
structure TimeArgs where
  process_UUID : String
  process_name : String
  flow_count : String
  final_time_representativeness : String
deriving DecidableEq

/-- The per-process record accumulated in `allProcesses`; `""` marks a
field that was never assigned (JavaScript `undefined`). -/
structure GradeRec where
  process_name : String
  location : String
  flow_count : String
  technical_grade : String
  spatial_grade : String
  time_grade : String
deriving DecidableEq

/-- Whether the accumulator already holds a record for the key. -/
def alContains (m : List (String × GradeRec)) (k : String) : Bool :=
  m.any (fun p => p.1 = k)

/-- Apply an update to the record stored under the key. -/
def alUpdate (m : List (String × GradeRec)) (k : String) (f : GradeRec → GradeRec) :
    List (String × GradeRec) :=
  m.map (fun p => if p.1 = k then (p.1, f p.2) else p)

/-- Fold step for the technical summaries: create the record if absent,
then assign its technical grade. -/
def addTechnical (m : List (String × GradeRec)) (d : TechArgs) :
    List (String × GradeRec) :=
  if d.process_UUID = "" then m
  else
    let m1 := if alContains m d.process_UUID then m
      else m ++ [(d.process_UUID, ⟨d.process_name, "", d.flow_count, "", "", ""⟩)]
    alUpdate m1 d.process_UUID
      (fun r => { r with technical_grade := d.final_technical_representativeness })

/-- Fold step for the spatial summaries: create the record if absent (with
its location), update the location of an existing record when the summary
carries one, then assign the spatial grade. -/
def addSpatial (m : List (String × GradeRec)) (d : SpatArgs) :
    List (String × GradeRec) :=
  if d.process_UUID = "" then m
  else
    let m1 :=
      if alContains m d.process_UUID then
        if d.location = "" then m
        else alUpdate m d.process_UUID (fun r => { r with location := d.location })
      else m ++ [(d.process_UUID, ⟨d.process_name, d.location, d.flow_count, "", "", ""⟩)]
    alUpdate m1 d.process_UUID
      (fun r => { r with spatial_grade := d.final_spatial_representativeness })

/-- Fold step for the time summaries: create the record if absent, then
assign its time grade. -/
def addTime (m : List (String × GradeRec)) (d : TimeArgs) :
    List (String × GradeRec) :=
  if d.process_UUID = "" then m
  else
    let m1 := if alContains m d.process_UUID then m
      else m ++ [(d.process_UUID, ⟨d.process_name, "", d.flow_count, "", "", ""⟩)]
    alUpdate m1 d.process_UUID
      (fun r => { r with time_grade := d.final_time_representativeness })

/-- A materialized `final_summary` tool call: the ScoreSheet joining the
three axis grades of one candidate process. -/
structure FinalSummary where
  process_UUID : String
  process_name : String
  location : String
  flow_count : String
  technical_representativeness : String
  spatial_representativeness : String
  time_representativeness : String
deriving DecidableEq

/-- The synthesis loop of `final_summarizer`: group all summaries by
process UUID, then emit a `final_summary` for each process, skipping every
process missing its technical, spatial or time grade. -/
def finalSummarize (tech : List TechArgs) (spat : List SpatArgs)
    (time : List TimeArgs) : List FinalSummary :=
  let m := time.foldl addTime (spat.foldl addSpatial (tech.foldl addTechnical []))
  m.filterMap (fun p =>
    let r := p.2
    if r.technical_grade = "" ∨ r.spatial_grade = "" ∨ r.time_grade = "" then none
    else some ⟨p.1,
      (if r.process_name = "" then "Unknown Process" else r.process_name),
      (if r.location = "" then "Unknown Location" else r.location),
      (if r.flow_count = "" then "0" else r.flow_count),
      r.technical_grade, r.spatial_grade, r.time_grade⟩)

/-! ## TournamentSelector (modelled from the spec)

Modelled from the spec: the repository delegates the execution of the
selection steps to the external oracle — the `process_selector` stage only
assembles a prompt that prescribes the algorithm verbatim (filter to the
lowest technical grade, then, in the order fixed by the heterogeneity
classification, to the lowest temporal/spatial grades, then to the highest
flow count, then an arbitrary tie-break).  The executable selection logic
is therefore missing from the source and is defined here following the
spec's §4.3 contract, with "first in input order" as the documented
tie-break. -/

/-- A candidate ScoreSheet as fed to the tournament: the three axis grades
(1 best … 5 worst) and the flow count. -/
structure ScoreSheet where
  process_UUID : String
  process_name : String
  location : String
  technical : Nat
  spatial : Nat
  temporal : Nat
  flow_count : Nat
deriving DecidableEq

/-- The heterogeneity classification selecting between the two fixed
criteria orderings (`RESULT_A`: technical, temporal, spatial, flow count;
`RESULT_B`: technical, spatial, temporal, flow count). -/
inductive Heterogeneity where
  | resultA
  | resultB
deriving DecidableEq

/-- Best value of a field over a candidate list, under a selection
operation (`Nat.min` for MIN criteria, `Nat.max` for MAX). -/
def bestValOn (g : Nat → Nat → Nat) (f : ScoreSheet → Nat) :
    List ScoreSheet → Option Nat
  | [] => none
  | x :: xs => some (xs.foldl (fun m y => g m (f y)) (f x))

/-- One tournament round: keep exactly the candidates achieving the best
value of the criterion over the current set. -/
def filterSel (g : Nat → Nat → Nat) (f : ScoreSheet → Nat)
    (l : List ScoreSheet) : List ScoreSheet :=
  match bestValOn g f l with
  | none => []
  | some m => l.filter (fun x => f x = m)

/-- Best (numerically lowest) value of a MIN criterion over the candidates. -/
def minimumOn (f : ScoreSheet → Nat) (l : List ScoreSheet) : Option Nat :=
  bestValOn Nat.min f l

/-- TournamentSelector.select: apply the four criteria in the order fixed
by the heterogeneity classification, then pick the first remaining
candidate. -/
def tournamentSelect (het : Heterogeneity) (cands : List ScoreSheet) :
    Option ScoreSheet :=
  match cands with
  | [] => none
  | _ :: _ =>
    let s1 := filterSel Nat.min (fun x => x.technical) cands
    let s2 := match het with
      | Heterogeneity.resultA => filterSel Nat.min (fun x => x.temporal) s1
      | Heterogeneity.resultB => filterSel Nat.min (fun x => x.spatial) s1
    let s3 := match het with
      | Heterogeneity.resultA => filterSel Nat.min (fun x => x.spatial) s2
      | Heterogeneity.resultB => filterSel Nat.min (fun x => x.temporal) s2
    let s4 := filterSel Nat.max (fun x => x.flow_count) s3
    s4.head?

/-! ## ConsensusReducer (modelled from the spec)

Modelled from the spec: the per-axis summarize stages delegate the
reduction of the redundant grading samples to the external oracle — their
prompts prescribe the rule (keep a unanimous value, otherwise the most
frequent one, breaking ties deterministically; the spec fixes
"numerically lower wins" as the tie-break).  The executable reduction is
missing from the source and is defined here following the spec's §4.4
contract. -/

/-- Number of occurrences of a value in a sample list. -/
def countOcc (v : Nat) : List Nat → Nat
  | [] => 0
  | x :: xs => (if x = v then 1 else 0) + countOcc v xs

/-- Choose between two candidate grades: the one occurring more often in
the sample list wins, and on equal counts the numerically lower one. -/
def pickBetter (l : List Nat) (a b : Nat) : Nat :=
  if countOcc a l < countOcc b l ∨ (countOcc b l = countOcc a l ∧ b < a) then b
  else a

/-- ConsensusReducer.reduce: collapse a sample list into its modal value,
preferring the numerically lower (better) grade on ties; `none` only for
the empty list, on which the spec leaves the reducer undefined. -/
def consensusReduce : List Nat → Option Nat
  | [] => none
  | x :: xs => some (xs.foldl (pickBetter (x :: xs)) x)

/-! ### Concrete inputs used by the witness theorems -/

/-- A message carrying one `demand_extractor` tool call. -/
def demandExtractorMsg : Msg := ⟨[⟨"demand_extractor", noArgs⟩]⟩

/-- A `boundary_judger` message answering `"No"` (cradle not reached). -/
def boundaryNoMsg : Msg := ⟨[⟨"boundary_judger", ⟨some "No", none, none⟩⟩]⟩

/-- A `flow_judger` message with a non-empty combined flow list. -/
def flowJudgerContinueMsg : Msg :=
  ⟨[⟨"flow_judger", ⟨none, some false, some [⟨"alumina", "u1", "high"⟩]⟩⟩]⟩

/-- One concrete technical summary record. -/
def techSummaryW : TechArgs := ⟨"u1", "alumina production", "12", "1"⟩

/-- One concrete spatial summary record. -/
def spatSummaryW : SpatArgs := ⟨"u1", "alumina production", "CN", "12", "2"⟩

/-- One concrete time summary record. -/
def timeSummaryW : TimeArgs := ⟨"u1", "alumina production", "12", "1"⟩

/-- The ScoreSheet the summarizer materializes from those records. -/
def finalSummaryW : FinalSummary :=
  ⟨"u1", "alumina production", "CN", "12", "1", "2", "1"⟩

/-- One source row for the projection witness, missing the `location`
column. -/
def witnessRow : Row := [("process_UUID", Cell.str "u1"), ("flow_count", Cell.num 12)]

/-- A one-sheet workbook for the projection witness. -/
def witnessWb : Workbook := [("Process", [witnessRow])]

/-- Candidate A of the spec's tournament scenario. -/
def candA : ScoreSheet := ⟨"A", "process A", "CN", 1, 2, 3, 5⟩

/-- Candidate B of the spec's tournament scenario. -/
def candB : ScoreSheet := ⟨"B", "process B", "CN", 1, 1, 4, 2⟩

/-! ## Theorems -/

/-! ### C1: no canonical key is accepted twice -/

theorem admitDemand_fst_mem {visited : List (List Char)} {d : List Char}
    {dep : Nat} {k : List Char} (hk : k ∈ visited) :
    k ∈ (admitDemand visited d dep).1 := by
  unfold admitDemand
  split
  · exact hk
  · split
    · exact hk
    · exact List.mem_cons_of_mem _ hk

theorem acceptedKeys_not_mem (calls : List (List Char × Nat)) :
    ∀ (visited : List (List Char)) (k : List Char), k ∈ visited →
      k ∉ acceptedKeys visited calls := by
  induction calls with
  | nil => intro visited k _; simp [acceptedKeys]
  | cons c rest ih =>
    intro visited k hk
    by_cases h1 : MAX_RECURSION_DEPTH ≤ c.2
    · simpa [acceptedKeys, admitDemand, h1] using ih visited k hk
    · by_cases h2 : canonicalKey c.1 ∈ visited
      · simpa [acceptedKeys, admitDemand, h1, h2] using ih visited k hk
      · have hne : k ≠ canonicalKey c.1 := fun h => h2 (h ▸ hk)
        have htail := ih (canonicalKey c.1 :: visited) k (List.mem_cons_of_mem _ hk)
        simp [acceptedKeys, admitDemand, h1, h2, hne, htail]

/-- C1: within one controller lifetime, `processDemandsRecursively` never
accepts two requirements with equal canonical keys: over any sequence of
atomic admission steps (any interleaving of concurrent calls — the
`has`/`add` check-then-insert pair runs with no intervening `await`, hence
atomically), from any starting visited set, the list of accepted canonical
keys has no duplicates. -/
theorem admit_never_accepts_duplicate_keys (visited : List (List Char))
    (calls : List (List Char × Nat)) : (acceptedKeys visited calls).Nodup := by
  induction calls generalizing visited with
  | nil => simp [acceptedKeys]
  | cons c rest ih =>
    by_cases h1 : MAX_RECURSION_DEPTH ≤ c.2
    · simpa [acceptedKeys, admitDemand, h1] using ih visited
    · by_cases h2 : canonicalKey c.1 ∈ visited
      · simpa [acceptedKeys, admitDemand, h1, h2] using ih visited
      · simp only [acceptedKeys, admitDemand, if_neg h1, if_neg h2, if_pos rfl]
        refine List.nodup_cons.mpr ⟨?_, ih _⟩
        exact acceptedKeys_not_mem rest _ _ (List.mem_cons_self _ _)

/-! ### C2: bounded branching of the depth-bounded controller -/

theorem procList_count_le (oracle : List Char → List (List Char)) (fuel : Nat)
    (hrec : ∀ d visited, (procRec oracle fuel d visited).2 ≤ 2 ^ fuel - 1) :
    ∀ (ds : List (List Char)) (visited : List (List Char)),
      (procList oracle fuel ds visited).2 ≤ ds.length * (2 ^ fuel - 1) := by
  intro ds
  induction ds with
  | nil => intro visited; simp [procList]
  | cons d rest ih =>
    intro visited
    simp only [procList, List.length_cons]
    have h1 := hrec d visited
    have h2 := ih (procRec oracle fuel d visited).1
    have : (rest.length + 1) * (2 ^ fuel - 1)
        = (2 ^ fuel - 1) + rest.length * (2 ^ fuel - 1) := by ring
    omega

theorem procRec_count_le (oracle : List Char → List (List Char))
    (hor : ∀ s, (oracle s).length ≤ 2) :
    ∀ (fuel : Nat) (d : List Char) (visited : List (List Char)),
      (procRec oracle fuel d visited).2 ≤ 2 ^ fuel - 1 := by
  intro fuel
  induction fuel with
  | zero => intro d visited; simp [procRec]
  | succ fuel ih =>
    intro d visited
    unfold procRec
    split
    · simp
    · have h := procList_count_le oracle fuel ih (oracle d)
        (canonicalKey d :: visited)
      have h2 : (procList oracle fuel (oracle d) (canonicalKey d :: visited)).2
          ≤ 2 * (2 ^ fuel - 1) :=
        le_trans h (Nat.mul_le_mul_right _ (hor d))
      have hp : 1 ≤ 2 ^ fuel := Nat.one_le_two_pow
      have hs : 2 ^ (fuel + 1) = 2 * 2 ^ fuel := by rw [pow_succ]; ring
      show 1 + (procList oracle fuel (oracle d) (canonicalKey d :: visited)).2
        ≤ 2 ^ (fuel + 1) - 1
      omega

/-- C2: with maximum recursion depth 3, if every processed requirement
yields exactly 2 new sub-requirements, the number of child admissions of a
lifecycle analysis (accepted and processed recursive calls below the root)
is at most 14. -/
theorem depth_bounded_child_admissions (oracle : List Char → List (List Char))
    (d : List Char) (hor : ∀ s, (oracle s).length = 2) :
    (procRec oracle MAX_RECURSION_DEPTH d []).2 - 1 ≤ 14 := by
  have h := procRec_count_le oracle (fun s => le_of_eq (hor s))
    MAX_RECURSION_DEPTH d []
  have h7 : 2 ^ MAX_RECURSION_DEPTH - 1 = 7 := by decide
  omega

theorem depth_bounded_child_admissions_witness :
    (∀ s, ((fun d => ['a' :: d, 'b' :: d]) s).length = 2) ∧
    (procRec (fun d => ['a' :: d, 'b' :: d]) MAX_RECURSION_DEPTH ['x'] []).2 - 1
      ≤ 14 :=
  ⟨fun _ => rfl,
   depth_bounded_child_admissions (fun d => ['a' :: d, 'b' :: d]) ['x']
     (fun _ => rfl)⟩

/-! ### C3: the iteration bound of `shouldContinueBoundaryAnalysis` -/

/-- C3 counterexample: a state in which the configured maximum of 10
`demand_extractor` iterations has been reached and the boundary judger
answers `"No"`; the routing function keeps the workflow running instead of
routing to `end_workflow`. -/
theorem boundary_routing_not_stopped_at_ten :
    countToolMsgs (List.replicate 10 demandExtractorMsg ++ [boundaryNoMsg])
        "demand_extractor" = 10 ∧
    shouldContinueBoundaryAnalysis
        (List.replicate 10 demandExtractorMsg ++ [boundaryNoMsg])
      = "continue_analysis" := by
  constructor <;> rfl

/-- C3 (amended): the routing function that counts `demand_extractor`
invocations routes to `end_workflow` once the count exceeds the configured
maximum of 10 — that is, from the 11th iteration on, one step later than
the claim states — so the run still terminates after a bounded number of
admissions. -/
theorem boundary_routing_stops_above_ten (msgs : List Msg)
    (h : 10 < countToolMsgs msgs "demand_extractor") :
    shouldContinueBoundaryAnalysis msgs = "end_workflow" := by
  unfold shouldContinueBoundaryAnalysis
  rw [if_pos h]

theorem boundary_routing_stops_above_ten_witness :
    10 < countToolMsgs (List.replicate 11 demandExtractorMsg) "demand_extractor" ∧
    shouldContinueBoundaryAnalysis (List.replicate 11 demandExtractorMsg)
      = "end_workflow" :=
  ⟨by decide, boundary_routing_stops_above_ten _ (by decide)⟩

/-! ### C6: `shouldContinueFlowJudger` never continues on an empty merge -/

/-- C6: when a `flow_judger` message is present, the routing function
routes to `end_workflow` whenever that message reports `empty_result =
true` or an empty `combined_flows` list; below the iteration cap it routes
to `continue_workflow` (towards `flow_filter`) in every other case. -/
theorem flow_judger_routing_empty_check (msgs : List Msg) (m : Msg)
    (hfind : msgs.find? (fun x => hasToolNamed x "flow_judger") = some m) :
    (((firstToolCallArgs m).bind (fun x => x.empty_result) = some true ∨
        ((firstToolCallArgs m).bind (fun x => x.combined_flows)).getD [] = []) →
      shouldContinueFlowJudger msgs = "end_workflow") ∧
    (countToolMsgs msgs "flow_judger" ≤ 10 →
      ¬((firstToolCallArgs m).bind (fun x => x.empty_result) = some true ∨
        ((firstToolCallArgs m).bind (fun x => x.combined_flows)).getD [] = []) →
      shouldContinueFlowJudger msgs = "continue_workflow") := by
  constructor
  · intro hcond
    by_cases hc : 10 < countToolMsgs msgs "flow_judger"
    · unfold shouldContinueFlowJudger
      rw [if_pos hc]
    · unfold shouldContinueFlowJudger
      rw [if_neg hc, hfind]
      simp only []
      rw [if_pos hcond]
  · intro hle hncond
    have hc : ¬ 10 < countToolMsgs msgs "flow_judger" := by omega
    unfold shouldContinueFlowJudger
    rw [if_neg hc, hfind]
    simp only []
    rw [if_neg hncond]

theorem flow_judger_routing_empty_check_witness :
    ([flowJudgerContinueMsg].find? (fun x => hasToolNamed x "flow_judger")
        = some flowJudgerContinueMsg) ∧
    shouldContinueFlowJudger [flowJudgerContinueMsg] = "continue_workflow" :=
  ⟨by decide,
   (flow_judger_routing_empty_check [flowJudgerContinueMsg] flowJudgerContinueMsg
     (by decide)).2 (by decide) (by decide)⟩

/-! ### C8: a ScoreSheet is materialized only with all three grades -/

/-- C8: every `final_summary` emitted by `final_summarizer` carries all
three axis grades: processes missing their technical, spatial or time
grade are skipped, so no emitted ScoreSheet has an absent (empty) grade
field. -/
theorem final_summary_has_all_grades (tech : List TechArgs)
    (spat : List SpatArgs) (time : List TimeArgs) (s : FinalSummary)
    (hs : s ∈ finalSummarize tech spat time) :
    s.technical_representativeness ≠ "" ∧ s.spatial_representativeness ≠ "" ∧
    s.time_representativeness ≠ "" := by
  unfold finalSummarize at hs
  rcases List.mem_filterMap.mp hs with ⟨p, _, hpe⟩
  by_cases hg : p.2.technical_grade = "" ∨ p.2.spatial_grade = "" ∨
      p.2.time_grade = ""
  · rw [if_pos hg] at hpe
    exact absurd hpe (by simp)
  · rw [if_neg hg] at hpe
    push_neg at hg
    obtain ⟨h1, h2, h3⟩ := hg
    obtain rfl := Option.some.inj hpe
    exact ⟨h1, h2, h3⟩

theorem final_summary_has_all_grades_witness :
    finalSummaryW ∈ finalSummarize [techSummaryW] [spatSummaryW] [timeSummaryW] ∧
    (finalSummaryW.technical_representativeness ≠ "" ∧
     finalSummaryW.spatial_representativeness ≠ "" ∧
     finalSummaryW.time_representativeness ≠ "") :=
  ⟨by decide,
   final_summary_has_all_grades [techSummaryW] [spatSummaryW] [timeSummaryW]
     finalSummaryW (by decide)⟩

/-! ### C9, C10: shape of `extractSheetToJson` results -/

theorem rowGet_cons (p : String × Cell) (rest : Row) (k : String) :
    rowGet (p :: rest) k = if p.1 = k then some p.2 else rowGet rest k := by
  unfold rowGet
  by_cases hp : p.1 = k
  · rw [List.find?_cons_of_pos _ (by simp [hp]), if_pos hp]
    rfl
  · rw [List.find?_cons_of_neg _ (by simp [hp]), if_neg hp]

theorem rowHasKey_cons (p : String × Cell) (rest : Row) (k : String) :
    rowHasKey (p :: rest) k = (decide (p.1 = k) || rowHasKey rest k) := rfl

theorem rowHasKey_iff (r : Row) (k : String) :
    rowHasKey r k = true ↔ k ∈ rowKeys r := by
  unfold rowHasKey rowKeys
  simp only [List.any_eq_true, List.mem_map, decide_eq_true_eq]

theorem rowKeys_jsObjSet (r : Row) (k : String) (v : Cell) :
    rowKeys (jsObjSet r k v)
      = if rowHasKey r k then rowKeys r else rowKeys r ++ [k] := by
  unfold jsObjSet
  split
  · unfold rowKeys
    rw [List.map_map]
    have hf : ((fun p => p.1) ∘ fun p : String × Cell =>
        if p.1 = k then (p.1, v) else p) = fun p : String × Cell => p.1 := by
      funext p
      by_cases hp : p.1 = k <;> simp [hp]
    rw [hf]
  · unfold rowKeys
    rw [List.map_append]
    rfl

theorem rowGet_set_replace (r : Row) (k : String) (v : Cell)
    (h : rowHasKey r k = true) :
    rowGet (r.map (fun p => if p.1 = k then (p.1, v) else p)) k = some v := by
  induction r with
  | nil => simp [rowHasKey] at h
  | cons p rest ih =>
    rw [List.map_cons, rowGet_cons]
    by_cases hp : p.1 = k
    · rw [if_pos hp]
      simp [hp]
    · have h' : rowHasKey rest k = true := by
        rw [rowHasKey_cons] at h
        simpa [hp] using h
      rw [if_neg hp, if_neg hp]
      exact ih h'

theorem rowGet_set_other (r : Row) (k k' : String) (v : Cell) (h : k' ≠ k) :
    rowGet (r.map (fun p => if p.1 = k then (p.1, v) else p)) k'
      = rowGet r k' := by
  induction r with
  | nil => rfl
  | cons p rest ih =>
    rw [List.map_cons, rowGet_cons, rowGet_cons]
    by_cases hp : p.1 = k
    · have hne : ¬ p.1 = k' := by
        rw [hp]
        exact fun hh => h hh.symm
      rw [if_pos hp]
      simpa [hne] using ih
    · rw [if_neg hp]
      by_cases hk : p.1 = k'
      · rw [if_pos hk, if_pos hk]
      · rw [if_neg hk, if_neg hk]
        exact ih

theorem rowGet_append_single_self (r : Row) (k : String) (v : Cell)
    (h : rowHasKey r k = false) :
    rowGet (r ++ [(k, v)]) k = some v := by
  induction r with
  | nil => simp [rowGet]
  | cons p rest ih =>
    rw [List.cons_append, rowGet_cons]
    rw [rowHasKey_cons] at h
    have hp : ¬ p.1 = k := by
      intro hh
      simp [hh] at h
    have h' : rowHasKey rest k = false := by
      simpa [hp] using h
    rw [if_neg hp]
    exact ih h'

theorem rowGet_append_single_other (r : Row) (k k' : String) (v : Cell)
    (h : k' ≠ k) :
    rowGet (r ++ [(k, v)]) k' = rowGet r k' := by
  induction r with
  | nil =>
    have hkk : ¬ k = k' := fun hh => h hh.symm
    simp [rowGet, hkk]
  | cons p rest ih =>
    rw [List.cons_append, rowGet_cons, rowGet_cons]
    by_cases hp : p.1 = k'
    · rw [if_pos hp, if_pos hp]
    · rw [if_neg hp, if_neg hp]
      exact ih

theorem rowGet_jsObjSet_self (r : Row) (k : String) (v : Cell) :
    rowGet (jsObjSet r k v) k = some v := by
  unfold jsObjSet
  split
  case isTrue h => exact rowGet_set_replace r k v h
  case isFalse h =>
    exact rowGet_append_single_self r k v (by simpa using h)

theorem rowGet_jsObjSet_other (r : Row) (k k' : String) (v : Cell)
    (h : k' ≠ k) :
    rowGet (jsObjSet r k v) k' = rowGet r k' := by
  unfold jsObjSet
  split
  · exact rowGet_set_other r k k' v h
  · exact rowGet_append_single_other r k k' v h

theorem rowGet_projectFold (src : Row) (cols : List String) :
    ∀ (acc : Row) (c : String),
      rowGet (cols.foldl
          (fun acc c => jsObjSet acc c ((rowGet src c).getD Cell.vnull)) acc) c
        = if c ∈ cols then some ((rowGet src c).getD Cell.vnull)
          else rowGet acc c := by
  induction cols with
  | nil => intro acc c; simp
  | cons d ds ih =>
    intro acc c
    rw [List.foldl_cons, ih]
    by_cases hc : c ∈ ds
    · simp [hc, List.mem_cons]
    · by_cases hcd : c = d
      · subst hcd
        simp [hc, rowGet_jsObjSet_self]
      · have hnc : ¬ c ∈ d :: ds := by simp [hcd, hc]
        simp [hc, hnc, rowGet_jsObjSet_other _ _ _ _ hcd]

theorem rowGet_projectRow (src : Row) (cols : List String) (c : String)
    (hc : c ∈ cols) :
    rowGet (projectRow cols src) c = some ((rowGet src c).getD Cell.vnull) := by
  unfold projectRow
  rw [rowGet_projectFold]
  simp [hc]

theorem dedupAux_nil (seen : List String) : dedupAux [] seen = [] := rfl

theorem dedupAux_cons (c : String) (cs seen : List String) :
    dedupAux (c :: cs) seen
      = if c ∈ seen then dedupAux cs seen else c :: dedupAux cs (c :: seen) := rfl

theorem dedupAux_congr (l : List String) :
    ∀ s1 s2, (∀ x, x ∈ s1 ↔ x ∈ s2) → dedupAux l s1 = dedupAux l s2 := by
  induction l with
  | nil => intro s1 s2 _; rfl
  | cons c cs ih =>
    intro s1 s2 h
    rw [dedupAux_cons, dedupAux_cons]
    by_cases hc : c ∈ s1
    · rw [if_pos hc, if_pos ((h c).1 hc)]
      exact ih s1 s2 h
    · rw [if_neg hc, if_neg (fun hh => hc ((h c).2 hh))]
      exact congrArg _ (ih (c :: s1) (c :: s2)
        (fun x => by simp [List.mem_cons, h x]))

theorem rowKeys_projectFold (src : Row) (cols : List String) :
    ∀ (acc : Row),
      rowKeys (cols.foldl
          (fun acc c => jsObjSet acc c ((rowGet src c).getD Cell.vnull)) acc)
        = rowKeys acc ++ dedupAux cols (rowKeys acc) := by
  induction cols with
  | nil => intro acc; simp [dedupAux_nil]
  | cons d ds ih =>
    intro acc
    rw [List.foldl_cons, ih, rowKeys_jsObjSet, dedupAux_cons]
    by_cases hd : rowHasKey acc d = true
    · have hdm : d ∈ rowKeys acc := (rowHasKey_iff acc d).1 hd
      rw [if_pos hd, if_pos hdm]
    · have hdm : ¬ d ∈ rowKeys acc := fun hh => hd ((rowHasKey_iff acc d).2 hh)
      rw [if_neg hd, if_neg hdm]
      have hcong : dedupAux ds (rowKeys acc ++ [d])
          = dedupAux ds (d :: rowKeys acc) :=
        dedupAux_congr ds _ _ (fun x => by simp [List.mem_append, or_comm])
      rw [hcong, List.append_assoc]
      rfl

theorem rowKeys_projectRow (src : Row) (cols : List String) :
    rowKeys (projectRow cols src) = dedupKeys cols := by
  unfold projectRow dedupKeys
  rw [rowKeys_projectFold]
  rfl
theorem extract_rows_inv (fileExists : Bool) (readResult : Except String Workbook)
    (sheetName : String) (filterConditions : Option (List (String × Cell)))
    (cols : List String) (rows : List Row)
    (hres : extractSheetToJson fileExists readResult sheetName filterConditions
        (some cols) = ExtractJson.rows rows) :
    ∃ data2 : List Row, rows = data2.map (projectRow cols) := by
  cases fileExists with
  | false => simp [extractSheetToJson] at hres
  | true =>
    cases readResult with
    | error e => simp [extractSheetToJson] at hres
    | ok wb =>
      by_cases hsheet : wb.any (fun p => p.1 = sheetName)
      · cases hfilter : filterStage wb sheetName filterConditions with
        | error msg => simp [extractSheetToJson, hsheet, hfilter] at hres
        | ok data2 =>
          by_cases hemp : data2.isEmpty
          · simp [extractSheetToJson, hsheet, hfilter, hemp] at hres
          · refine ⟨data2, ?_⟩
            simp [extractSheetToJson, hsheet, hfilter, hemp] at hres
            exact hres.symm
      · simp [extractSheetToJson, hsheet] at hres

/-- C9: for a non-empty projection list, every row returned by
`extractSheetToJson` has exactly the projected columns as its keys (the
keys a JavaScript object acquires from assigning each projected column
once, in order), and a projected column missing from a source row is
filled with the explicit null marker rather than omitted. -/
theorem extract_projection_uniform_rows (fileExists : Bool)
    (readResult : Except String Workbook) (sheetName : String)
    (filterConditions : Option (List (String × Cell))) (cols : List String)
    (rows : List Row) (hcols : cols ≠ [])
    (hres : extractSheetToJson fileExists readResult sheetName filterConditions
        (some cols) = ExtractJson.rows rows) :
    (∀ r ∈ rows, rowKeys r = dedupKeys cols) ∧
    (∀ (src : Row), ∀ c ∈ cols, rowGet src c = none →
      rowGet (projectRow cols src) c = some Cell.vnull) := by
  constructor
  · intro r hr
    obtain ⟨data2, rfl⟩ := extract_rows_inv fileExists readResult sheetName
      filterConditions cols rows hres
    obtain ⟨src, _, rfl⟩ := List.mem_map.mp hr
    exact rowKeys_projectRow src cols
  · intro src c hc hnone
    rw [rowGet_projectRow src cols c hc, hnone]
    rfl

theorem extract_projection_uniform_rows_witness :
    (["process_UUID", "location"] ≠ ([] : List String)) ∧
    ((∀ r ∈ [projectRow ["process_UUID", "location"] witnessRow],
        rowKeys r = dedupKeys ["process_UUID", "location"]) ∧
     (∀ (src : Row), ∀ c ∈ ["process_UUID", "location"], rowGet src c = none →
        rowGet (projectRow ["process_UUID", "location"] src) c
          = some Cell.vnull)) :=
  ⟨by decide,
   extract_projection_uniform_rows true (Except.ok witnessWb) "Process" none
     ["process_UUID", "location"]
     [projectRow ["process_UUID", "location"] witnessRow]
     (by decide) (by decide)⟩

/-- C10: `extractSheetToJson` is total at its public boundary: for every
input — missing file, failing read, missing sheet, missing filter column,
empty sheet — it returns either an array of rows or an object with an
`error` field and an empty `data` array, so callers such as `getSheetData`
parse a value instead of handling a propagated exception. -/
theorem extract_total_error_shape (fileExists : Bool)
    (readResult : Except String Workbook) (sheetName : String)
    (filterConditions : Option (List (String × Cell)))
    (extractColumns : Option (List String)) :
    (∃ data, extractSheetToJson fileExists readResult sheetName
        filterConditions extractColumns = ExtractJson.rows data) ∨
    (∃ msg, extractSheetToJson fileExists readResult sheetName
        filterConditions extractColumns = ExtractJson.errObj msg []) := by
  cases fileExists with
  | false => exact Or.inr ⟨_, rfl⟩
  | true =>
    cases readResult with
    | error e => exact Or.inr ⟨_, rfl⟩
    | ok wb =>
      by_cases hsheet : wb.any (fun p => p.1 = sheetName)
      · cases hfilter : filterStage wb sheetName filterConditions with
        | error msg =>
          refine Or.inr ⟨msg, ?_⟩
          simp [extractSheetToJson, hsheet, hfilter]
        | ok data2 =>
          cases extractColumns with
          | none =>
            refine Or.inl ⟨data2, ?_⟩
            simp [extractSheetToJson, hsheet, hfilter]
          | some cols =>
            by_cases hemp : data2.isEmpty
            · refine Or.inr
                ⟨"worksheet is empty, cannot extract columns", ?_⟩
              simp [extractSheetToJson, hsheet, hfilter, hemp]
            · refine Or.inl ⟨data2.map (projectRow cols), ?_⟩
              simp [extractSheetToJson, hsheet, hfilter, hemp]
      · refine Or.inr ⟨"sheet name does not exist: " ++ sheetName, ?_⟩
        simp [extractSheetToJson, hsheet]

/-! ### C5: the tournament selection -/

theorem foldl_sel_attained (g : Nat → Nat → Nat)
    (hg : ∀ a b, g a b = a ∨ g a b = b) (f : ScoreSheet → Nat)
    (xs : List ScoreSheet) :
    ∀ a : Nat, (xs.foldl (fun m y => g m (f y)) a = a ∨
      ∃ y ∈ xs, xs.foldl (fun m y => g m (f y)) a = f y) := by
  induction xs with
  | nil => intro a; exact Or.inl rfl
  | cons x xs ih =>
    intro a
    rw [List.foldl_cons]
    rcases ih (g a (f x)) with h | ⟨y, hy, h⟩
    · rcases hg a (f x) with hga | hgx
      · exact Or.inl (by rw [h, hga])
      · exact Or.inr ⟨x, List.mem_cons_self x xs, by rw [h, hgx]⟩
    · exact Or.inr ⟨y, List.mem_cons_of_mem x hy, h⟩

theorem foldl_min_le (f : ScoreSheet → Nat) (xs : List ScoreSheet) :
    ∀ a : Nat, xs.foldl (fun m y => Nat.min m (f y)) a ≤ a ∧
      ∀ y ∈ xs, xs.foldl (fun m y => Nat.min m (f y)) a ≤ f y := by
  induction xs with
  | nil => intro a; exact ⟨Nat.le_refl a, by simp⟩
  | cons x xs ih =>
    intro a
    rw [List.foldl_cons]
    obtain ⟨h1, h2⟩ := ih (Nat.min a (f x))
    refine ⟨le_trans h1 (Nat.min_le_left _ _), ?_⟩
    intro y hy
    rcases List.mem_cons.mp hy with rfl | hy
    · exact le_trans h1 (Nat.min_le_right _ _)
    · exact h2 y hy

theorem mem_filterSel (g : Nat → Nat → Nat) (f : ScoreSheet → Nat)
    (l : List ScoreSheet) (x : ScoreSheet) (hx : x ∈ filterSel g f l) :
    x ∈ l ∧ bestValOn g f l = some (f x) := by
  unfold filterSel at hx
  cases hb : bestValOn g f l with
  | none => rw [hb] at hx; cases hx
  | some m =>
    rw [hb] at hx
    obtain ⟨hmem, hfx⟩ := List.mem_filter.mp hx
    have : f x = m := by simpa using hfx
    exact ⟨hmem, by rw [this]⟩

theorem filterSel_ne_nil (g : Nat → Nat → Nat)
    (hg : ∀ a b, g a b = a ∨ g a b = b) (f : ScoreSheet → Nat)
    (l : List ScoreSheet) (hl : l ≠ []) : filterSel g f l ≠ [] := by
  cases l with
  | nil => exact absurd rfl hl
  | cons x xs =>
    unfold filterSel bestValOn
    rcases foldl_sel_attained g hg f xs (f x) with h | ⟨y, hy, h⟩
    · have hx : x ∈ (x :: xs).filter
          (fun z => decide (f z = xs.foldl (fun m y => g m (f y)) (f x))) := by
        refine List.mem_filter.mpr ⟨List.mem_cons_self x xs, ?_⟩
        simp [h]
      exact List.ne_nil_of_mem hx
    · have hy2 : y ∈ (x :: xs).filter
          (fun z => decide (f z = xs.foldl (fun m y => g m (f y)) (f x))) := by
        refine List.mem_filter.mpr ⟨List.mem_cons_of_mem x hy, ?_⟩
        simp [h]
      exact List.ne_nil_of_mem hy2

theorem tournamentSelect_mem (het : Heterogeneity) (cands : List ScoreSheet)
    (s : ScoreSheet) (hs : tournamentSelect het cands = some s) :
    s ∈ cands ∧ minimumOn (fun x => x.technical) cands = some s.technical := by
  cases cands with
  | nil => cases hs
  | cons c cs =>
    unfold tournamentSelect at hs
    have hmem4 : s ∈ filterSel Nat.max (fun x => x.flow_count)
        (match het with
          | Heterogeneity.resultA => filterSel Nat.min (fun x => x.spatial)
              (match het with
                | Heterogeneity.resultA => filterSel Nat.min (fun x => x.temporal)
                    (filterSel Nat.min (fun x => x.technical) (c :: cs))
                | Heterogeneity.resultB => filterSel Nat.min (fun x => x.spatial)
                    (filterSel Nat.min (fun x => x.technical) (c :: cs)))
          | Heterogeneity.resultB => filterSel Nat.min (fun x => x.temporal)
              (match het with
                | Heterogeneity.resultA => filterSel Nat.min (fun x => x.temporal)
                    (filterSel Nat.min (fun x => x.technical) (c :: cs))
                | Heterogeneity.resultB => filterSel Nat.min (fun x => x.spatial)
                    (filterSel Nat.min (fun x => x.technical) (c :: cs)))) := by
      cases het <;> exact List.mem_of_mem_head? hs
    have hmem3 := (mem_filterSel _ _ _ _ hmem4).1
    have hmem1 : s ∈ filterSel Nat.min (fun x => x.technical) (c :: cs) := by
      cases het <;>
        exact (mem_filterSel _ _ _ _ ((mem_filterSel _ _ _ _ hmem3).1)).1
    obtain ⟨hmem, hbest⟩ := mem_filterSel _ _ _ _ hmem1
    exact ⟨hmem, hbest⟩

/-- C5: `TournamentSelector.select` returns `none` exactly on the empty
candidate pool, and any selected candidate belongs to the input pool and
achieves the best (numerically lowest) value of the first criterion
(technical representativeness) over all inputs, for either criteria
ordering. -/
theorem tournament_select_sound (het : Heterogeneity)
    (cands : List ScoreSheet) :
    (tournamentSelect het cands = none ↔ cands = []) ∧
    ∀ s, tournamentSelect het cands = some s →
      s ∈ cands ∧ minimumOn (fun x => x.technical) cands = some s.technical := by
  constructor
  · constructor
    · intro hnone
      by_contra hne
      cases cands with
      | nil => exact hne rfl
      | cons c cs =>
        have hmin : ∀ a b : Nat, Nat.min a b = a ∨ Nat.min a b = b := by
          intro a b
          rcases Nat.le_total a b with h | h
          · exact Or.inl (Nat.min_eq_left h)
          · exact Or.inr (Nat.min_eq_right h)
        have hmax : ∀ a b : Nat, Nat.max a b = a ∨ Nat.max a b = b := by
          intro a b
          rcases Nat.le_total a b with h | h
          · exact Or.inr (Nat.max_eq_right h)
          · exact Or.inl (Nat.max_eq_left h)
        have h1 := filterSel_ne_nil Nat.min (hmin) (fun x => x.technical)
          (c :: cs) (by simp)
        have h2 : (match het with
            | Heterogeneity.resultA => filterSel Nat.min (fun x => x.temporal)
                (filterSel Nat.min (fun x => x.technical) (c :: cs))
            | Heterogeneity.resultB => filterSel Nat.min (fun x => x.spatial)
                (filterSel Nat.min (fun x => x.technical) (c :: cs))) ≠ [] := by
          cases het <;> exact filterSel_ne_nil Nat.min (hmin) _ _ h1
        have h3 : (match het with
            | Heterogeneity.resultA => filterSel Nat.min (fun x => x.spatial)
                (match het with
                  | Heterogeneity.resultA => filterSel Nat.min (fun x => x.temporal)
                      (filterSel Nat.min (fun x => x.technical) (c :: cs))
                  | Heterogeneity.resultB => filterSel Nat.min (fun x => x.spatial)
                      (filterSel Nat.min (fun x => x.technical) (c :: cs)))
            | Heterogeneity.resultB => filterSel Nat.min (fun x => x.temporal)
                (match het with
                  | Heterogeneity.resultA => filterSel Nat.min (fun x => x.temporal)
                      (filterSel Nat.min (fun x => x.technical) (c :: cs))
                  | Heterogeneity.resultB => filterSel Nat.min (fun x => x.spatial)
                      (filterSel Nat.min (fun x => x.technical) (c :: cs)))) ≠ [] := by
          cases het <;> exact filterSel_ne_nil Nat.min (hmin) _ _ h2
        have h4 := filterSel_ne_nil Nat.max hmax (fun x => x.flow_count) _ h3
        unfold tournamentSelect at hnone
        cases het <;>
          exact h4 (List.head?_eq_none_iff.mp hnone)
    · intro h
      subst h
      rfl
  · exact tournamentSelect_mem het cands

theorem tournament_select_sound_witness :
    (tournamentSelect Heterogeneity.resultB [candA, candB] = none
        ↔ ([candA, candB] : List ScoreSheet) = []) ∧
    (candB ∈ [candA, candB] ∧
      minimumOn (fun x => x.technical) [candA, candB] = some candB.technical) :=
  ⟨(tournament_select_sound Heterogeneity.resultB [candA, candB]).1,
   (tournament_select_sound Heterogeneity.resultB [candA, candB]).2 candB
     (by decide)⟩

/-! ### C7: the consensus reduction -/

theorem pickBetter_cases (l : List Nat) (a b : Nat) :
    pickBetter l a b = a ∨ pickBetter l a b = b := by
  unfold pickBetter
  split
  · exact Or.inr rfl
  · exact Or.inl rfl

theorem pickBetter_count_left (l : List Nat) (a b : Nat) :
    countOcc a l ≤ countOcc (pickBetter l a b) l := by
  unfold pickBetter
  split
  case isTrue h =>
    rcases h with h | ⟨h, _⟩
    · exact Nat.le_of_lt h
    · exact Nat.le_of_eq h.symm
  case isFalse h => exact Nat.le_refl _

theorem pickBetter_count_right (l : List Nat) (a b : Nat) :
    countOcc b l ≤ countOcc (pickBetter l a b) l := by
  unfold pickBetter
  split
  case isTrue h => exact Nat.le_refl _
  case isFalse h =>
    push_neg at h
    exact h.1

theorem pickBetter_tie_left (l : List Nat) (a b : Nat)
    (h : countOcc a l = countOcc (pickBetter l a b) l) :
    pickBetter l a b ≤ a := by
  unfold pickBetter at h ⊢
  split
  case isTrue hc =>
    rw [if_pos hc] at h
    rcases hc with hc | ⟨_, hba⟩
    · omega
    · exact Nat.le_of_lt hba
  case isFalse hc => exact Nat.le_refl a

theorem pickBetter_tie_right (l : List Nat) (a b : Nat)
    (h : countOcc b l = countOcc (pickBetter l a b) l) :
    pickBetter l a b ≤ b := by
  unfold pickBetter at h ⊢
  split
  case isTrue hc => exact Nat.le_refl b
  case isFalse hc =>
    rw [if_neg hc] at h
    push_neg at hc
    exact hc.2 h

theorem foldl_pickBetter_spec (l : List Nat) (xs : List Nat) :
    ∀ a : Nat,
      (xs.foldl (pickBetter l) a = a ∨ xs.foldl (pickBetter l) a ∈ xs) ∧
      (countOcc a l ≤ countOcc (xs.foldl (pickBetter l) a) l ∧
        (countOcc a l = countOcc (xs.foldl (pickBetter l) a) l →
          xs.foldl (pickBetter l) a ≤ a)) ∧
      (∀ y ∈ xs, countOcc y l ≤ countOcc (xs.foldl (pickBetter l) a) l ∧
        (countOcc y l = countOcc (xs.foldl (pickBetter l) a) l →
          xs.foldl (pickBetter l) a ≤ y)) := by
  induction xs with
  | nil =>
    intro a
    exact ⟨Or.inl rfl, ⟨Nat.le_refl _, fun _ => Nat.le_refl _⟩, by simp⟩
  | cons x xs ih =>
    intro a
    rw [List.foldl_cons]
    obtain ⟨hmem, ⟨hba, hta⟩, hys⟩ := ih (pickBetter l a x)
    refine ⟨?_, ⟨?_, ?_⟩, ?_⟩
    · rcases hmem with h | h
      · rcases pickBetter_cases l a x with hp | hp
        · exact Or.inl (by rw [h, hp])
        · exact Or.inr (by rw [h, hp]; exact List.mem_cons_self x xs)
      · exact Or.inr (List.mem_cons_of_mem x h)
    · exact Nat.le_trans (pickBetter_count_left l a x) hba
    · intro heq
      have h1 := pickBetter_count_left l a x
      have h2 := hba
      have hpa : countOcc a l = countOcc (pickBetter l a x) l := by omega
      have hpr : countOcc (pickBetter l a x) l
          = countOcc (xs.foldl (pickBetter l) (pickBetter l a x)) l := by omega
      exact Nat.le_trans (hta hpr) (pickBetter_tie_left l a x hpa)
    · intro y hy
      rcases List.mem_cons.mp hy with rfl | hy
      · refine ⟨Nat.le_trans (pickBetter_count_right l a y) hba, ?_⟩
        intro heq
        have h1 := pickBetter_count_right l a y
        have h2 := hba
        have hpy : countOcc y l = countOcc (pickBetter l a y) l := by omega
        have hpr : countOcc (pickBetter l a y) l
            = countOcc (xs.foldl (pickBetter l) (pickBetter l a y)) l := by omega
        exact Nat.le_trans (hta hpr) (pickBetter_tie_right l a y hpy)
      · exact hys y hy

/-- C7: `ConsensusReducer.reduce` is deterministic: it is a function of the
sample list alone (two invocations on the same list return the same grade),
and its result is uniquely pinned down — it is a sample of maximal
occurrence count, numerically least among the tied maximizers, and any
grade with those properties is the result. -/
theorem consensus_reduce_deterministic (l : List Nat) (hl : l ≠ []) :
    ∃ v, consensusReduce l = some v ∧ v ∈ l ∧
      (∀ u ∈ l, countOcc u l ≤ countOcc v l) ∧
      (∀ u ∈ l, countOcc u l = countOcc v l → v ≤ u) ∧
      (∀ w ∈ l, (∀ u ∈ l, countOcc u l ≤ countOcc w l) →
        (∀ u ∈ l, countOcc u l = countOcc w l → w ≤ u) →
        consensusReduce l = some w) := by
  cases l with
  | nil => exact absurd rfl hl
  | cons x xs =>
    obtain ⟨hmem, ⟨hba, hta⟩, hys⟩ := foldl_pickBetter_spec (x :: xs) xs x
    have hrmem : xs.foldl (pickBetter (x :: xs)) x ∈ x :: xs := by
      rcases hmem with h | h
      · rw [h]; exact List.mem_cons_self x xs
      · exact List.mem_cons_of_mem x h
    have hmax : ∀ u ∈ x :: xs,
        countOcc u (x :: xs) ≤ countOcc (xs.foldl (pickBetter (x :: xs)) x) (x :: xs) := by
      intro u hu
      rcases List.mem_cons.mp hu with rfl | hu
      · exact hba
      · exact (hys u hu).1
    have htie : ∀ u ∈ x :: xs,
        countOcc u (x :: xs) = countOcc (xs.foldl (pickBetter (x :: xs)) x) (x :: xs) →
          xs.foldl (pickBetter (x :: xs)) x ≤ u := by
      intro u hu
      rcases List.mem_cons.mp hu with rfl | hu
      · exact hta
      · exact (hys u hu).2
    refine ⟨xs.foldl (pickBetter (x :: xs)) x, rfl, hrmem, hmax, htie, ?_⟩
    intro w hw hwmax hwtie
    have h1 := hwmax _ hrmem
    have h2 := hmax w hw
    have heq : countOcc w (x :: xs)
        = countOcc (xs.foldl (pickBetter (x :: xs)) x) (x :: xs) := by omega
    have hrw := htie w hw heq
    have hwr := hwtie _ hrmem heq.symm
    have : xs.foldl (pickBetter (x :: xs)) x = w := Nat.le_antisymm hrw hwr
    rw [consensusReduce, this]

theorem consensus_reduce_deterministic_witness :
    ([1, 3] : List Nat) ≠ [] ∧
    (∃ v, consensusReduce [1, 3] = some v ∧ v ∈ ([1, 3] : List Nat) ∧
      (∀ u ∈ ([1, 3] : List Nat), countOcc u [1, 3] ≤ countOcc v [1, 3]) ∧
      (∀ u ∈ ([1, 3] : List Nat), countOcc u [1, 3] = countOcc v [1, 3] → v ≤ u) ∧
      (∀ w ∈ ([1, 3] : List Nat),
        (∀ u ∈ ([1, 3] : List Nat), countOcc u [1, 3] ≤ countOcc w [1, 3]) →
        (∀ u ∈ ([1, 3] : List Nat), countOcc u [1, 3] = countOcc w [1, 3] → w ≤ u) →
        consensusReduce [1, 3] = some w)) :=
  ⟨by decide, consensus_reduce_deterministic [1, 3] (by decide)⟩

/-! ### C4: idempotence of the canonicalization -/

theorem jsLowerChar_eq_cases (c : Char) :
    jsLowerChar c = c ∨ ∃ p ∈ letterPairs, p.1 = c ∧ jsLowerChar c = p.2 := by
  unfold jsLowerChar
  cases hf : letterPairs.find? (fun p => p.1 = c) with
  | none => exact Or.inl rfl
  | some p =>
    have hmem := List.mem_of_find?_eq_some hf
    have hpc : p.1 = c := by simpa using List.find?_some hf
    exact Or.inr ⟨p, hmem, hpc, rfl⟩

theorem letterPairs_ws : ∀ p ∈ letterPairs, p.2.isWhitespace = p.1.isWhitespace := by
  decide

theorem letterPairs_snd_fixed : ∀ p ∈ letterPairs, jsLowerChar p.2 = p.2 := by
  decide

theorem jsLowerChar_isWhitespace (c : Char) :
    (jsLowerChar c).isWhitespace = c.isWhitespace := by
  rcases jsLowerChar_eq_cases c with h | ⟨p, hp, hpc, h2⟩
  · rw [h]
  · rw [h2, ← hpc]
    exact letterPairs_ws p hp

theorem jsLowerChar_idem (c : Char) :
    jsLowerChar (jsLowerChar c) = jsLowerChar c := by
  rcases jsLowerChar_eq_cases c with h | ⟨p, hp, _, h2⟩
  · rw [h]
    exact h
  · rw [h2]
    exact letterPairs_snd_fixed p hp

theorem jsToLower_idem (l : List Char) :
    jsToLower (jsToLower l) = jsToLower l := by
  induction l with
  | nil => rfl
  | cons a l ih =>
    unfold jsToLower at ih ⊢
    simp only [List.map_cons]
    rw [jsLowerChar_idem, ih]

theorem trimStart_idem (s : List Char) : trimStart (trimStart s) = trimStart s := by
  unfold trimStart
  induction s with
  | nil => rfl
  | cons a l ih =>
    rw [List.dropWhile_cons]
    by_cases h : a.isWhitespace
    · rw [if_pos (by simp [h])]
      exact ih
    · rw [if_neg (by simp [h]), List.dropWhile_cons, if_neg (by simp [h])]

theorem trimStart_length_le (l : List Char) : (trimStart l).length ≤ l.length := by
  unfold trimStart
  induction l with
  | nil => exact Nat.le_refl 0
  | cons a t ih =>
    rw [List.dropWhile_cons]
    split
    · exact Nat.le_trans ih (Nat.le_succ _)
    · exact Nat.le_refl _

theorem trimEnd_cons (a : Char) (l : List Char) :
    trimEnd (a :: l)
      = if (trimEnd l).isEmpty && a.isWhitespace then [] else a :: trimEnd l := rfl

theorem trimEnd_idem (s : List Char) : trimEnd (trimEnd s) = trimEnd s := by
  induction s with
  | nil => rfl
  | cons a l ih =>
    rw [trimEnd_cons]
    by_cases h : ((trimEnd l).isEmpty && a.isWhitespace) = true
    · rw [if_pos h]
      rfl
    · rw [if_neg h, trimEnd_cons, ih, if_neg h]

theorem trimEnd_head (a : Char) (l : List Char) :
    trimEnd (a :: l) = [] ∨ ∃ t, trimEnd (a :: l) = a :: t := by
  rw [trimEnd_cons]
  split
  · exact Or.inl rfl
  · exact Or.inr ⟨_, rfl⟩

theorem trimStart_eq_self_of_head (a : Char) (t : List Char)
    (ha : a.isWhitespace = false) : trimStart (a :: t) = a :: t := by
  unfold trimStart
  rw [List.dropWhile_cons, if_neg (by simp [ha])]

theorem trimStart_trimEnd (x : List Char) (hx : trimStart x = x) :
    trimStart (trimEnd x) = trimEnd x := by
  cases x with
  | nil => rfl
  | cons a l =>
    have ha : a.isWhitespace = false := by
      by_contra hw
      have hw2 : a.isWhitespace = true := by
        cases h : a.isWhitespace
        · exact absurd h hw
        · rfl
      have h1 : trimStart (a :: l) = trimStart l := by
        unfold trimStart
        rw [List.dropWhile_cons, if_pos (by simp [hw2])]
      have h2 : (trimStart l).length ≤ l.length := trimStart_length_le l
      have h3 := congrArg List.length (hx.symm.trans h1)
      simp at h3
      omega
    rcases trimEnd_head a l with h0 | ⟨t, ht⟩
    · rw [h0]
      rfl
    · rw [ht]
      exact trimStart_eq_self_of_head a t ha

theorem jsTrim_idem (s : List Char) : jsTrim (jsTrim s) = jsTrim s := by
  unfold jsTrim
  rw [trimStart_trimEnd (trimStart s) (trimStart_idem s), trimEnd_idem]

theorem isEmpty_map (f : Char → Char) (l : List Char) :
    (l.map f).isEmpty = l.isEmpty := by
  cases l <;> rfl

theorem trimStart_map_lower (s : List Char) :
    trimStart (jsToLower s) = jsToLower (trimStart s) := by
  induction s with
  | nil => rfl
  | cons a l ih =>
    unfold jsToLower trimStart at ih ⊢
    rw [List.map_cons, List.dropWhile_cons, List.dropWhile_cons]
    by_cases h : a.isWhitespace
    · rw [if_pos (by simp [jsLowerChar_isWhitespace, h]), if_pos (by simp [h])]
      exact ih
    · rw [if_neg (by simp [jsLowerChar_isWhitespace, h]), if_neg (by simp [h])]
      rfl

theorem trimEnd_map_lower (s : List Char) :
    trimEnd (jsToLower s) = jsToLower (trimEnd s) := by
  induction s with
  | nil => rfl
  | cons a l ih =>
    unfold jsToLower at ih ⊢
    rw [List.map_cons, trimEnd_cons, trimEnd_cons]
    by_cases h : ((trimEnd l).isEmpty && a.isWhitespace) = true
    · have hc : ((trimEnd (List.map jsLowerChar l)).isEmpty
          && (jsLowerChar a).isWhitespace) = true := by
        rw [ih, jsLowerChar_isWhitespace, isEmpty_map]
        exact h
      rw [if_pos hc, if_pos h]
      rfl
    · have hc : ¬ ((trimEnd (List.map jsLowerChar l)).isEmpty
          && (jsLowerChar a).isWhitespace) = true := by
        rw [ih, jsLowerChar_isWhitespace, isEmpty_map]
        exact h
      rw [if_neg hc, if_neg h, List.map_cons, ih]

theorem jsTrim_map_lower (s : List Char) :
    jsTrim (jsToLower s) = jsToLower (jsTrim s) := by
  unfold jsTrim
  rw [trimStart_map_lower, trimEnd_map_lower]

set_option maxRecDepth 4000 in
/-- C4 counterexample: the canonicalization is not idempotent on every
text.  For a 101-character demand whose trimmed text has whitespace just
before the 100-character cut, the first canonicalization truncates away
the final non-blank character and leaves trailing whitespace, which the
second canonicalization then trims: the two results differ. -/
theorem canonicalKey_not_idempotent :
    canonicalKey (canonicalKey ('a' :: (List.replicate 99 ' ' ++ ['b'])))
      ≠ canonicalKey ('a' :: (List.replicate 99 ' ' ++ ['b'])) := by
  decide

/-- C4 (amended): the canonicalization (trim, then lower-case, then
truncate to the 100-character prefix) is idempotent on every requirement
text whose trimmed form is at most 100 characters long — that is, whenever
the truncation does not cut the text (truncation of a longer text can
expose trailing whitespace, which a second application trims, as the
counterexample shows). -/
theorem canonicalKey_idem_of_short (s : List Char)
    (h : (jsTrim s).length ≤ 100) :
    canonicalKey (canonicalKey s) = canonicalKey s := by
  have hlen : (jsToLower (jsTrim s)).length ≤ 100 := by
    unfold jsToLower
    rw [List.length_map]
    exact h
  have htake : (jsToLower (jsTrim s)).take 100 = jsToLower (jsTrim s) :=
    List.take_of_length_le hlen
  unfold canonicalKey
  rw [htake, jsTrim_map_lower, jsTrim_idem, jsToLower_idem]
  exact htake

theorem canonicalKey_idem_of_short_witness :
    (jsTrim (' ' :: 'A' :: 'l' :: ' ' :: [])).length ≤ 100 ∧
    canonicalKey (canonicalKey (' ' :: 'A' :: 'l' :: ' ' :: []))
      = canonicalKey (' ' :: 'A' :: 'l' :: ' ' :: []) :=
  ⟨by decide, canonicalKey_idem_of_short _ (by decide)⟩
